import Mathlib

/-!
Shallow embedding of the release-tag classification engine of
smart-rom-sync (file `smartromsync/sy_sync.py`, class `SystemSync`),
together with proofs about its behaviour.

Python strings are modelled as Lean `String`; Python `a in b` on strings
is contiguous-substring search; Python truthiness of `Optional[str]`,
`Optional[int]` and `list` is modelled explicitly where the source relies
on it.  Functions that contain a `raise` site are modelled in
`Except String` so that reachability of the exceptional branches can be
settled; the plain wrappers extract the normal result.
-/

set_option autoImplicit false

namespace SmartRomSync

/-- Python `needle in hay` on strings: contiguous substring test,
written on the character lists. -/
def strIn (needle hay : List Char) : Bool :=
  if needle.isPrefixOf hay then true
  else
    match hay with
    | [] => false
    | _ :: t => strIn needle t

/-- Python `needle in hay` for `str` operands. -/
def pyIn (needle hay : String) : Bool :=
  strIn needle.toList hay.toList

/-- Python truthiness of an `Optional[str]`: `None` and `""` are falsy. -/
def pyTruthy : Option String → Bool
  | none => false
  | some s => !(s == "")

/-- Dynamic-typing model of the Python values appearing as keys of
`SPECIAL_DIR_CRITERIA`; the source checks `isinstance(special, str)` at
run time, so the key type must be able to express a non-string. -/
inductive PyVal where
  | str (s : String)
  | notStr
  deriving DecidableEq, Repr

/-- `SystemSync.SPECIAL_DIR_CRITERIA`: ordered mapping from special
category name to its equivalent substrings (dict declaration order). -/
def SPECIAL_DIR_CRITERIA : List (PyVal × List String) :=
  [(.str "Demo", ["Demo"]),
   (.str "Aftermarket", ["Aftermarket"]),
   (.str "Unlicensed", ["Unlicensed", "Unl", "Pirate"]),
   (.str "Unreleased", ["Unreleased", "Proto"])]

/-- `SystemSync.REGION_ALWAYS_ALLOWED`. -/
def REGION_ALWAYS_ALLOWED : List String :=
  ["World", "Unknown"]

/-- `SystemSync.REGION_LIST`: the priority-ordered region vocabulary. -/
def REGION_LIST : List String :=
  ["USA",
   "Europe",
   "Japan",
   "World",
   "Asia",
   "Korea",
   "Australia",
   "Germany",
   "France",
   "Italy",
   "Taiwan",
   "Sweden",
   "Spain",
   "Unknown",
   "Hong Kong",
   "China",
   "Brazil",
   "Canada",
   "Russia",
   "United Kingdom",
   "Latin America",
   "Netherlands",
   "Scandinavia",
   "Argentina",
   "Mexico",
   "Denmark"]

/-- One lazy step of `re.findall(r"\((.*?)\)", _)`: from the characters
following a `(`, take everything up to the first `)`; `.` does not match
a newline, so a `\n` before the first `)` (or no `)` at all) means the
match attempt at this `(` fails. -/
def scanClose : List Char → Option (List Char × List Char)
  | [] => none
  | c :: rest =>
    if c = ')' then some ([], rest)
    else if c = '\n' then none
    else
      match scanClose rest with
      | some (content, rest2) => some (c :: content, rest2)
      | none => none

/-- The scan loop of `re.findall(r"\((.*?)\)", _)` over the character
list: at each `(` attempt a lazy match; on success continue after the
closing `)`, on failure (and at any other character) advance one
character.  The `fuel` argument only makes the recursion structural
(every step consumes at least one character and exactly one unit of
fuel, so fuel equal to the list length never runs out). -/
def findallAux : Nat → List Char → List (List Char)
  | 0, _ => []
  | _ + 1, [] => []
  | fuel + 1, c :: rest =>
    if c = '(' then
      match scanClose rest with
      | some (content, rest2) => content :: findallAux fuel rest2
      | none => findallAux fuel rest
    else findallAux fuel rest

/-- `re.findall(r"\((.*?)\)", filename)` from `_get_release_info`:
the list of the contents of the parenthesised groups, left to right. -/
def extract_tags (filename : String) : List String :=
  (findallAux filename.toList.length filename.toList).map (fun cs => String.mk cs)

/-- The exact-match loop of `SystemSync._get_region`: for each tag (with
its index) that is a member of the vocabulary, overwrite the candidate
and the recorded index. -/
def exactPass (vocab : List String) : List String → Nat → Option String × Option Nat → Option String × Option Nat
  | [], _, acc => acc
  | s :: rest, n, acc =>
    exactPass vocab rest (n + 1) (if vocab.contains s then (some s, some n) else acc)

/-- The inner loop of the partial-match pass of `_get_region`: for one
tag `snip` at index `n`, scan the reversed vocabulary and on every
substring hit overwrite candidate, full text and index. -/
def partialScanVocab (snip : String) (n : Nat) : List String → Option String × Option String × Option Nat → Option String × Option String × Option Nat
  | [], acc => acc
  | r :: rest, acc =>
    partialScanVocab snip n rest (if pyIn r snip then (some r, some snip, some n) else acc)

/-- The outer loop of the partial-match pass of `_get_region`. -/
def partialPass (vocabRev : List String) : List String → Nat → Option String × Option String × Option Nat → Option String × Option String × Option Nat
  | [], _, acc => acc
  | snip :: rest, n, acc =>
    partialPass vocabRev rest (n + 1) (partialScanVocab snip n vocabRev acc)

/-- `SystemSync._get_region`, with the one implicit exception site made
explicit: if the partial pass ends with a truthy candidate but
`region_full_str` was never assigned, the `return` raises `NameError`.
Returns `(region_dir, region_full, recorded index)`. -/
def getRegionE (release_info_raw : List String) : Except String (String × String × Option Nat) :=
  let a := exactPass REGION_LIST release_info_raw 0 (none, none)
  if pyTruthy a.1 then
    .ok (a.1.getD "", a.1.getD "", a.2)
  else
    let b := partialPass REGION_LIST.reverse release_info_raw 0 (a.1, none, a.2)
    if pyTruthy b.1 then
      match b.2.1 with
      | some full => .ok (b.1.getD "", full, b.2.2)
      | none => .error "NameError: region_full_str referenced before assignment"
    else
      .ok ("Unknown", "Unknown", none)

/-- `SystemSync._get_region`, normal result (the exceptional branch is
proved unreachable below). -/
def get_region (release_info_raw : List String) : String × String × Option Nat :=
  match getRegionE release_info_raw with
  | .ok r => r
  | .error _ => ("Unknown", "Unknown", none)

/-- The category scan of `SystemSync._get_special` for one tag: the
first category (in table order) one of whose equivalents is a substring
of the tag. -/
def scanCriteria (snip : String) : List (PyVal × List String) → Option PyVal
  | [] => none
  | (cat, equivs) :: rest =>
    if equivs.any (fun equiv => pyIn equiv snip) then some cat
    else scanCriteria snip rest

/-- `SystemSync._get_special`, with its `raise TypeError` branch (taken
when a matched key is not a `str`) modelled explicitly. -/
def getSpecialE : List String → Except String (Option String)
  | [] => .ok none
  | snip :: rest =>
    match scanCriteria snip SPECIAL_DIR_CRITERIA with
    | some (.str special) => .ok (some special)
    | some .notStr => .error "TypeError: Expected str"
    | none => getSpecialE rest

/-- `SystemSync._get_special`, normal result. -/
def get_special (release_info_raw : List String) : Option String :=
  match getSpecialE release_info_raw with
  | .ok r => r
  | .error _ => none

/-- `ReleaseInfo` from `sy_types.py`. -/
structure ReleaseInfo where
  region_dir : String
  region_full : String
  special : Option String
  extra_info : List String
  deriving DecidableEq, Repr

/-- The `if idx: bracket_contents.pop(idx)` step of `_get_release_info`.
`if idx:` is Python truthiness of `Optional[int]`: both `None` and `0`
are falsy, so a recorded index of `0` does NOT trigger the removal; a
`pop` on an out-of-range index would raise `IndexError`. -/
def popRegionTag (bracket_contents : List String) : Option Nat → Except String (List String)
  | some i =>
    if i = 0 then .ok bracket_contents
    else if i < bracket_contents.length then .ok (bracket_contents.eraseIdx i)
    else .error "IndexError: pop index out of range"
  | none => .ok bracket_contents

/-- `SystemSync._get_release_info`, with the implicit exception sites of
its callees and of `pop` made explicit. -/
def getReleaseInfoE (filename : String) : Except String ReleaseInfo :=
  let bracket_contents := extract_tags filename
  match getRegionE bracket_contents with
  | .error e => .error e
  | .ok (region_dir, region_full, idx) =>
    match popRegionTag bracket_contents idx with
    | .error e => .error e
    | .ok remaining =>
      match getSpecialE remaining with
      | .error e => .error e
      | .ok special =>
        .ok { region_dir := region_dir, region_full := region_full, special := special, extra_info := remaining }

/-- `SystemSync._get_release_info`, normal result. -/
def get_release_info (filename : String) : ReleaseInfo :=
  match getReleaseInfoE filename with
  | .ok r => r
  | .error _ => { region_dir := "Unknown", region_full := "Unknown", special := none, extra_info := [] }

/-- The per-system state of a `SystemSync` object that the
classification engine reads: the four filter lists and the already
joined `remote_dir_full`. -/
structure SystemSync where
  region_list_include : List String
  region_list_exclude : List String
  special_list_include : List String
  special_list_exclude : List String
  remote_dir_full : String
  deriving DecidableEq, Repr

/-- `SystemSync._check_allowed_special`. -/
def check_allowed_special (self : SystemSync) (release_info : ReleaseInfo) : Bool :=
  if release_info.extra_info.any (fun extra => self.special_list_exclude.any (fun x => pyIn x extra)) then
    false
  else if !self.special_list_include.isEmpty then
    release_info.extra_info.any (fun extra => self.special_list_include.any (fun x => pyIn x extra))
  else
    true

/-- `SystemSync._check_allowed_region`. -/
def check_allowed_region (self : SystemSync) (release_info : ReleaseInfo) : Bool :=
  if self.region_list_exclude.any (fun region => pyIn region release_info.region_full) then
    false
  else if !self.region_list_include.isEmpty then
    (self.region_list_include ++ REGION_ALWAYS_ALLOWED).any (fun region => pyIn region release_info.region_full)
  else
    true

/-- `str(Path(f"{a}/{b}"))` on already normalised components. -/
def joinPath (a b : String) : String :=
  a ++ "/" ++ b

/-- `self.remote_dir_full = str(Path(f"{target_path}/{remote_dir}"))`. -/
def mk_remote_dir_full (target_path remote_dir : String) : String :=
  joinPath target_path remote_dir

/-- `output_dir_str` of `_get_files_to_push`: the special category when
`release_info["special"]` is truthy, else `region_dir`. -/
def output_dir_str (release_info : ReleaseInfo) : String :=
  match release_info.special with
  | some s => if s == "" then release_info.region_dir else s
  | none => release_info.region_dir

/-- One append into `files_to_push`, with Python dict semantics:
`if not files_to_push.get(key): files_to_push[key] = []` followed by
`files_to_push[key].append(name)`.  The mapping is modelled as an
insertion-ordered association list. -/
def dictAppend (m : List (String × List String)) (key name : String) : List (String × List String) :=
  match m.lookup key with
  | some _ => m.map (fun p => bif p.1 == key then (p.1, p.2 ++ [name]) else p)
  | none => m ++ [(key, [name])]

/-- The body of the loop of `SystemSync._get_files_to_push` for one
file name. -/
def push_step (self : SystemSync) (m : List (String × List String)) (name : String) : List (String × List String) :=
  let release_info := get_release_info name
  if check_allowed_special self release_info && check_allowed_region self release_info then
    dictAppend m (joinPath self.remote_dir_full (output_dir_str release_info)) name
  else
    m

/-- `SystemSync._get_files_to_push`, as a function of the file names
found in the local directory (the directory walk is an external
collaborator). -/
def get_files_to_push (self : SystemSync) (all_files : List String) : List (String × List String) :=
  all_files.foldl (push_step self) []

/-! Substring facts. -/

theorem strIn_iff (needle hay : List Char) : strIn needle hay = true ↔ needle <:+: hay := by
  induction hay with
  | nil => cases needle <;> simp [strIn, List.isPrefixOf]
  | cons c t ih =>
    cases hp : needle.isPrefixOf (c :: t) with
    | true =>
      simp only [strIn, hp, if_true]
      simp only [true_iff]
      exact (List.isPrefixOf_iff_prefix.mp hp).isInfix
    | false =>
      have hnp : ¬ needle <+: (c :: t) := by
        rw [← List.isPrefixOf_iff_prefix, hp]
        simp
      simp only [strIn, hp]
      rw [if_neg (by simp), ih, List.infix_cons_iff]
      constructor
      · exact fun h => Or.inr h
      · rintro (h | h)
        · exact absurd h hnp
        · exact h

theorem pyIn_iff (needle hay : String) : pyIn needle hay = true ↔ needle.toList <:+: hay.toList :=
  strIn_iff _ _

theorem pyIn_refl (s : String) : pyIn s s = true :=
  (pyIn_iff s s).mpr (List.infix_refl _)

/-! Indexing facts. -/

theorem getD_index_of_mem {x : String} {l : List String} (h : x ∈ l) :
    ∃ k, k < l.length ∧ l.getD k "" = x := by
  obtain ⟨n, hn⟩ := List.mem_iff_get.mp h
  refine ⟨n.1, n.2, ?_⟩
  rw [List.getD_eq_getElem _ _ n.2]
  exact hn

theorem getD_mem_str (l : List String) (k : Nat) (hk : k < l.length) : l.getD k "" ∈ l := by
  rw [List.getD_eq_getElem _ _ hk]
  exact List.getElem_mem hk

/-! Vocabulary facts. -/

theorem mem_REGION_LIST_ne_empty {s : String} (h : s ∈ REGION_LIST) : s ≠ "" := by
  fin_cases h <;> decide

theorem pyTruthy_some_of_ne {s : String} (h : s ≠ "") : pyTruthy (some s) = true := by
  simp [pyTruthy, h]

theorem contains_REGION_LIST_truthy {s : String} (h : REGION_LIST.contains s = true) :
    pyTruthy (some s) = true := by
  have hm : s ∈ REGION_LIST := by simpa using h
  exact pyTruthy_some_of_ne (mem_REGION_LIST_ne_empty hm)

/-! Exact-match pass. -/

theorem exactPass_skip (vocab : List String) :
    ∀ (tags : List String) (n : Nat) (acc : Option String × Option Nat),
      (∀ s ∈ tags, vocab.contains s = false) → exactPass vocab tags n acc = acc := by
  intro tags
  induction tags with
  | nil => intro n acc _; rfl
  | cons s rest ih =>
    intro n acc h
    have hs : vocab.contains s = false := h s (List.mem_cons_self _ _)
    simp only [exactPass, hs]
    rw [if_neg (by simp)]
    exact ih (n + 1) acc (fun x hx => h x (List.mem_cons_of_mem _ hx))

theorem exactPass_last (vocab : List String) :
    ∀ (tags : List String) (n : Nat) (acc : Option String × Option Nat) (i : Nat),
      i < tags.length →
      vocab.contains (tags.getD i "") = true →
      (∀ j, j < tags.length → i < j → vocab.contains (tags.getD j "") = false) →
      exactPass vocab tags n acc = (some (tags.getD i ""), some (n + i)) := by
  intro tags
  induction tags with
  | nil => intro n acc i hi; simp at hi
  | cons s rest ih =>
    intro n acc i hi hmem hlast
    cases i with
    | zero =>
      have hs : vocab.contains s = true := by simpa using hmem
      have hrest : ∀ x ∈ rest, vocab.contains x = false := by
        intro x hx
        obtain ⟨k, hk, hgx⟩ := getD_index_of_mem hx
        have hj := hlast (k + 1) (by simp; omega) (Nat.succ_pos k)
        rw [List.getD_cons_succ, hgx] at hj
        exact hj
      simp only [exactPass, hs]
      rw [if_pos trivial, exactPass_skip vocab rest (n + 1) _ hrest]
      simp
    | succ i2 =>
      have hi2 : i2 < rest.length := by simpa using hi
      rw [List.getD_cons_succ] at hmem
      have hlast2 : ∀ j, j < rest.length → i2 < j → vocab.contains (rest.getD j "") = false := by
        intro j hj hij
        have hj2 := hlast (j + 1) (by simp; omega) (by omega)
        rwa [List.getD_cons_succ] at hj2
      simp only [exactPass]
      rw [ih (n + 1) _ i2 hi2 hmem hlast2, List.getD_cons_succ]
      have hn : n + 1 + i2 = n + (i2 + 1) := by omega
      rw [hn]

theorem exactPass_idx_lt (vocab : List String) :
    ∀ (tags : List String) (n : Nat) (acc : Option String × Option Nat) (m : Nat),
      n + tags.length ≤ m →
      (∀ j, acc.2 = some j → j < m) →
      ∀ j, (exactPass vocab tags n acc).2 = some j → j < m := by
  intro tags
  induction tags with
  | nil => intro n acc m _ hacc; exact hacc
  | cons s rest ih =>
    intro n acc m hm hacc
    simp only [List.length_cons] at hm
    simp only [exactPass]
    refine ih (n + 1) _ m (by omega) ?_
    intro j hj
    split at hj
    · simp at hj
      omega
    · exact hacc j hj

/-! Partial-match pass. -/

theorem partialScanVocab_skip (snip : String) (n : Nat) :
    ∀ (vocab : List String) (acc : Option String × Option String × Option Nat),
      (∀ r ∈ vocab, pyIn r snip = false) → partialScanVocab snip n vocab acc = acc := by
  intro vocab
  induction vocab with
  | nil => intro acc _; rfl
  | cons r rest ih =>
    intro acc h
    have hr : pyIn r snip = false := h r (List.mem_cons_self _ _)
    simp only [partialScanVocab, hr]
    rw [if_neg (by simp)]
    exact ih acc (fun x hx => h x (List.mem_cons_of_mem _ hx))

theorem partialScanVocab_last (snip : String) (n : Nat) :
    ∀ (vocab : List String) (acc : Option String × Option String × Option Nat) (k : Nat),
      k < vocab.length →
      pyIn (vocab.getD k "") snip = true →
      (∀ k2, k2 < vocab.length → k < k2 → pyIn (vocab.getD k2 "") snip = false) →
      partialScanVocab snip n vocab acc = (some (vocab.getD k ""), some snip, some n) := by
  intro vocab
  induction vocab with
  | nil => intro acc k hk; simp at hk
  | cons r rest ih =>
    intro acc k hk hhit hlast
    cases k with
    | zero =>
      have hr : pyIn r snip = true := by simpa using hhit
      have hrest : ∀ x ∈ rest, pyIn x snip = false := by
        intro x hx
        obtain ⟨k2, hk2, hgx⟩ := getD_index_of_mem hx
        have hj := hlast (k2 + 1) (by simp; omega) (Nat.succ_pos k2)
        rw [List.getD_cons_succ, hgx] at hj
        exact hj
      simp only [partialScanVocab, hr]
      rw [if_pos trivial, partialScanVocab_skip snip n rest _ hrest]
      simp
    | succ k2 =>
      have hk2 : k2 < rest.length := by simpa using hk
      rw [List.getD_cons_succ] at hhit
      have hlast2 : ∀ k3, k3 < rest.length → k2 < k3 → pyIn (rest.getD k3 "") snip = false := by
        intro k3 hk3 hk23
        have hj := hlast (k3 + 1) (by simp; omega) (by omega)
        rwa [List.getD_cons_succ] at hj
      simp only [partialScanVocab]
      rw [ih _ k2 hk2 hhit hlast2, List.getD_cons_succ]

theorem partialPass_skip (vocabRev : List String) :
    ∀ (tags : List String) (n : Nat) (acc : Option String × Option String × Option Nat),
      (∀ s ∈ tags, ∀ r ∈ vocabRev, pyIn r s = false) → partialPass vocabRev tags n acc = acc := by
  intro tags
  induction tags with
  | nil => intro n acc _; rfl
  | cons s rest ih =>
    intro n acc h
    simp only [partialPass]
    rw [partialScanVocab_skip s n vocabRev acc (h s (List.mem_cons_self _ _))]
    exact ih (n + 1) acc (fun x hx => h x (List.mem_cons_of_mem _ hx))

theorem partialPass_last (vocabRev : List String) :
    ∀ (tags : List String) (n : Nat) (acc : Option String × Option String × Option Nat) (i k : Nat),
      i < tags.length →
      k < vocabRev.length →
      pyIn (vocabRev.getD k "") (tags.getD i "") = true →
      (∀ k2, k2 < vocabRev.length → k < k2 → pyIn (vocabRev.getD k2 "") (tags.getD i "") = false) →
      (∀ j, j < tags.length → i < j → ∀ r ∈ vocabRev, pyIn r (tags.getD j "") = false) →
      partialPass vocabRev tags n acc = (some (vocabRev.getD k ""), some (tags.getD i ""), some (n + i)) := by
  intro tags
  induction tags with
  | nil => intro n acc i k hi; simp at hi
  | cons s rest ih =>
    intro n acc i k hi hk hhit hklast hilast
    cases i with
    | zero =>
      simp only [List.getD_cons_zero] at hhit hklast ⊢
      have hrest : ∀ x ∈ rest, ∀ r ∈ vocabRev, pyIn r x = false := by
        intro x hx r hr
        obtain ⟨j, hj, hgx⟩ := getD_index_of_mem hx
        have hh := hilast (j + 1) (by simp; omega) (Nat.succ_pos j) r hr
        rw [List.getD_cons_succ, hgx] at hh
        exact hh
      simp only [partialPass]
      rw [partialScanVocab_last s n vocabRev acc k hk hhit hklast]
      rw [partialPass_skip vocabRev rest (n + 1) _ hrest]
      simp
    | succ i2 =>
      have hi2 : i2 < rest.length := by simpa using hi
      rw [List.getD_cons_succ] at hhit hklast
      have hilast2 : ∀ j, j < rest.length → i2 < j → ∀ r ∈ vocabRev, pyIn r (rest.getD j "") = false := by
        intro j hj hij r hr
        have hh := hilast (j + 1) (by simp; omega) (by omega) r hr
        rwa [List.getD_cons_succ] at hh
      simp only [partialPass]
      rw [ih (n + 1) _ i2 k hi2 hk hhit hklast hilast2, List.getD_cons_succ]
      have hn : n + 1 + i2 = n + (i2 + 1) := by omega
      rw [hn]

theorem partialScanVocab_inv (snip : String) (n : Nat) (m : Nat) (hn : n < m) :
    ∀ (vocab : List String) (acc : Option String × Option String × Option Nat),
      (pyTruthy acc.1 = true → (∃ f, acc.2.1 = some f) ∧ (∃ j, acc.2.2 = some j ∧ j < m)) →
      (pyTruthy (partialScanVocab snip n vocab acc).1 = true →
        (∃ f, (partialScanVocab snip n vocab acc).2.1 = some f) ∧
        (∃ j, (partialScanVocab snip n vocab acc).2.2 = some j ∧ j < m)) := by
  intro vocab
  induction vocab with
  | nil => intro acc hacc; exact hacc
  | cons r rest ih =>
    intro acc hacc
    simp only [partialScanVocab]
    refine ih _ ?_
    intro htr
    by_cases hhit : pyIn r snip = true
    · rw [if_pos hhit] at htr ⊢
      exact ⟨⟨snip, rfl⟩, n, rfl, hn⟩
    · rw [if_neg hhit] at htr ⊢
      exact hacc htr

theorem partialPass_inv (vocabRev : List String) :
    ∀ (tags : List String) (n : Nat) (acc : Option String × Option String × Option Nat) (m : Nat),
      n + tags.length ≤ m →
      (pyTruthy acc.1 = true → (∃ f, acc.2.1 = some f) ∧ (∃ j, acc.2.2 = some j ∧ j < m)) →
      (pyTruthy (partialPass vocabRev tags n acc).1 = true →
        (∃ f, (partialPass vocabRev tags n acc).2.1 = some f) ∧
        (∃ j, (partialPass vocabRev tags n acc).2.2 = some j ∧ j < m)) := by
  intro tags
  induction tags with
  | nil => intro n acc m _ hacc; exact hacc
  | cons s rest ih =>
    intro n acc m hm hacc
    simp only [List.length_cons] at hm
    simp only [partialPass]
    exact ih (n + 1) _ m (by omega) (partialScanVocab_inv s n m (by omega) vocabRev acc hacc)

/-! Characterisation of `_get_region`. -/

theorem get_region_exact :
    ∀ (tags : List String) (i : Nat),
      i < tags.length →
      REGION_LIST.contains (tags.getD i "") = true →
      (∀ j, j < tags.length → i < j → REGION_LIST.contains (tags.getD j "") = false) →
      get_region tags = (tags.getD i "", tags.getD i "", some i) := by
  intro tags i hi hmem hlast
  have he : exactPass REGION_LIST tags 0 (none, none) = (some (tags.getD i ""), some (0 + i)) :=
    exactPass_last REGION_LIST tags 0 (none, none) i hi hmem hlast
  have ht : pyTruthy (some (tags.getD i "")) = true := contains_REGION_LIST_truthy hmem
  simp only [get_region, getRegionE, he, ht, Option.getD_some, Nat.zero_add,
    eq_self_iff_true, if_true]

theorem get_region_partial_hit :
    ∀ (tags : List String) (i k : Nat),
      (∀ j, j < tags.length → REGION_LIST.contains (tags.getD j "") = false) →
      i < tags.length →
      k < REGION_LIST.reverse.length →
      pyIn (REGION_LIST.reverse.getD k "") (tags.getD i "") = true →
      (∀ k2, k2 < REGION_LIST.reverse.length → k < k2 →
        pyIn (REGION_LIST.reverse.getD k2 "") (tags.getD i "") = false) →
      (∀ j, j < tags.length → i < j → ∀ r ∈ REGION_LIST, pyIn r (tags.getD j "") = false) →
      get_region tags = (REGION_LIST.reverse.getD k "", tags.getD i "", some i) := by
  intro tags i k hnoexact hi hk hhit hklast hilast
  have hskip : ∀ s ∈ tags, REGION_LIST.contains s = false := by
    intro s hs
    obtain ⟨j, hj, hgj⟩ := getD_index_of_mem hs
    have hx := hnoexact j hj
    rwa [hgj] at hx
  have he : exactPass REGION_LIST tags 0 (none, none) = (none, none) :=
    exactPass_skip REGION_LIST tags 0 (none, none) hskip
  have hilast2 : ∀ j, j < tags.length → i < j → ∀ r ∈ REGION_LIST.reverse, pyIn r (tags.getD j "") = false :=
    fun j hj hij r hr => hilast j hj hij r (List.mem_reverse.mp hr)
  have hp : partialPass REGION_LIST.reverse tags 0 (none, none, none) =
      (some (REGION_LIST.reverse.getD k ""), some (tags.getD i ""), some (0 + i)) :=
    partialPass_last REGION_LIST.reverse tags 0 (none, none, none) i k hi hk hhit hklast hilast2
  have hmemrev : REGION_LIST.reverse.getD k "" ∈ REGION_LIST :=
    List.mem_reverse.mp (getD_mem_str _ k hk)
  have ht : pyTruthy (some (REGION_LIST.reverse.getD k "")) = true :=
    pyTruthy_some_of_ne (mem_REGION_LIST_ne_empty hmemrev)
  have hf : pyTruthy (none : Option String) = false := rfl
  simp only [get_region, getRegionE, he, hp, ht, hf, Option.getD_some, Nat.zero_add,
    eq_self_iff_true, if_true, Bool.false_eq_true, if_false]

theorem get_region_unknown :
    ∀ (tags : List String),
      (∀ s ∈ tags, ∀ r ∈ REGION_LIST, pyIn r s = false) →
      get_region tags = ("Unknown", "Unknown", none) := by
  intro tags h
  have hskip : ∀ s ∈ tags, REGION_LIST.contains s = false := by
    intro s hs
    cases hx : REGION_LIST.contains s with
    | false => rfl
    | true =>
      have hm : s ∈ REGION_LIST := by simpa using hx
      have hcon := h s hs s hm
      rw [pyIn_refl s] at hcon
      exact absurd hcon (by decide)
  have he := exactPass_skip REGION_LIST tags 0 (none, none) hskip
  have hrev : ∀ s ∈ tags, ∀ r ∈ REGION_LIST.reverse, pyIn r s = false :=
    fun s hs r hr => h s hs r (List.mem_reverse.mp hr)
  have hp := partialPass_skip REGION_LIST.reverse tags 0 (none, none, none) hrev
  have hf : pyTruthy (none : Option String) = false := rfl
  simp only [get_region, getRegionE, he, hp, hf, Bool.false_eq_true, if_false]

theorem getRegionE_ok_spec (tags : List String) :
    ∃ d f oi, getRegionE tags = Except.ok (d, f, oi) ∧ ∀ i2, oi = some i2 → i2 < tags.length := by
  cases hae : pyTruthy (exactPass REGION_LIST tags 0 (none, none)).1 with
  | true =>
    refine ⟨(exactPass REGION_LIST tags 0 (none, none)).1.getD "",
      (exactPass REGION_LIST tags 0 (none, none)).1.getD "",
      (exactPass REGION_LIST tags 0 (none, none)).2, ?_, ?_⟩
    · simp [getRegionE, hae]
    · intro i2 hi2
      refine exactPass_idx_lt REGION_LIST tags 0 (none, none) tags.length (by omega) ?_ i2 hi2
      intro j hj
      simp at hj
  | false =>
    cases hbe : pyTruthy (partialPass REGION_LIST.reverse tags 0
        ((exactPass REGION_LIST tags 0 (none, none)).1, none,
          (exactPass REGION_LIST tags 0 (none, none)).2)).1 with
    | false =>
      refine ⟨"Unknown", "Unknown", none, by simp [getRegionE, hae, hbe], ?_⟩
      intro i2 h2
      exact absurd h2 (by simp)
    | true =>
      have hacc0 : pyTruthy (exactPass REGION_LIST tags 0 (none, none)).1 = true → False := by
        intro h2
        rw [hae] at h2
        exact absurd h2 (by decide)
      obtain ⟨⟨f, hf⟩, j, hj, hjlt⟩ := partialPass_inv REGION_LIST.reverse tags 0
        ((exactPass REGION_LIST tags 0 (none, none)).1, none,
          (exactPass REGION_LIST tags 0 (none, none)).2)
        tags.length (by omega) (fun htr => (hacc0 htr).elim) hbe
      refine ⟨(partialPass REGION_LIST.reverse tags 0
          ((exactPass REGION_LIST tags 0 (none, none)).1, none,
            (exactPass REGION_LIST tags 0 (none, none)).2)).1.getD "", f,
        (partialPass REGION_LIST.reverse tags 0
          ((exactPass REGION_LIST tags 0 (none, none)).1, none,
            (exactPass REGION_LIST tags 0 (none, none)).2)).2.2, ?_, ?_⟩
      · simp [getRegionE, hae, hbe, hf]
      · intro i2 hi2
        have h2 : some j = some i2 := hj.symm.trans hi2
        injection h2 with h3
        rw [← h3]
        exact hjlt

theorem getRegionE_ok (tags : List String) : getRegionE tags = Except.ok (get_region tags) := by
  obtain ⟨d, f, oi, h, _⟩ := getRegionE_ok_spec tags
  simp [get_region, h]

theorem get_region_idx_lt (tags : List String) (i : Nat)
    (h : (get_region tags).2.2 = some i) : i < tags.length := by
  obtain ⟨d, f, oi, he, hb⟩ := getRegionE_ok_spec tags
  have hg : get_region tags = (d, f, oi) := by simp [get_region, he]
  rw [hg] at h
  exact hb i h

/-! Characterisation of `_get_special`. -/

theorem scanCriteria_none :
    ∀ (table : List (PyVal × List String)) (snip : String),
      (∀ p ∈ table, ∀ e ∈ p.2, pyIn e snip = false) → scanCriteria snip table = none := by
  intro table
  induction table with
  | nil => intro snip _; rfl
  | cons p rest ih =>
    intro snip h
    obtain ⟨cat, equivs⟩ := p
    have hany : equivs.any (fun equiv => pyIn equiv snip) = false := by
      simp only [List.any_eq_false]
      intro e he
      simpa using h (cat, equivs) (List.mem_cons_self _ _) e he
    simp only [scanCriteria, hany]
    rw [if_neg (by simp)]
    exact ih snip (fun q hq => h q (List.mem_cons_of_mem _ hq))

theorem scanCriteria_key_mem :
    ∀ (table : List (PyVal × List String)) (snip : String) (c : PyVal),
      scanCriteria snip table = some c → ∃ equivs, (c, equivs) ∈ table := by
  intro table
  induction table with
  | nil => intro snip c h; simp [scanCriteria] at h
  | cons p rest ih =>
    intro snip c h
    obtain ⟨cat, equivs⟩ := p
    simp only [scanCriteria] at h
    split at h
    · injection h with h2
      exact ⟨equivs, by rw [h2]; exact List.mem_cons_self _ _⟩
    · obtain ⟨e2, he2⟩ := ih snip c h
      exact ⟨e2, List.mem_cons_of_mem _ he2⟩

theorem scanCriteria_first :
    ∀ (table : List (PyVal × List String)) (snip : String) (k : Nat),
      k < table.length →
      (table.getD k (PyVal.notStr, [])).2.any (fun e => pyIn e snip) = true →
      (∀ k2, k2 < k → (table.getD k2 (PyVal.notStr, [])).2.any (fun e => pyIn e snip) = false) →
      scanCriteria snip table = some (table.getD k (PyVal.notStr, [])).1 := by
  intro table
  induction table with
  | nil => intro snip k hk; simp at hk
  | cons p rest ih =>
    intro snip k hk hhit hfirst
    obtain ⟨cat, equivs⟩ := p
    cases k with
    | zero =>
      simp only [List.getD_cons_zero] at hhit ⊢
      simp [scanCriteria, hhit]
    | succ k2 =>
      have hhead : equivs.any (fun e => pyIn e snip) = false := by
        simpa using hfirst 0 (Nat.succ_pos k2)
      simp only [scanCriteria, hhead]
      rw [if_neg (by simp), List.getD_cons_succ]
      have hfirst2 : ∀ k3, k3 < k2 →
          (rest.getD k3 (PyVal.notStr, [])).2.any (fun e => pyIn e snip) = false := by
        intro k3 hk3
        have hx := hfirst (k3 + 1) (by omega)
        rwa [List.getD_cons_succ] at hx
      rw [List.getD_cons_succ] at hhit
      exact ih snip k2 (by simpa using hk) hhit hfirst2

theorem getSpecialE_isOk (tags : List String) : ∃ r, getSpecialE tags = Except.ok r := by
  induction tags with
  | nil => exact ⟨none, rfl⟩
  | cons snip rest ih =>
    cases hs : scanCriteria snip SPECIAL_DIR_CRITERIA with
    | none =>
      obtain ⟨r, hr⟩ := ih
      exact ⟨r, by simp only [getSpecialE, hs]; exact hr⟩
    | some c =>
      obtain ⟨equivs, hmem⟩ := scanCriteria_key_mem _ _ _ hs
      have hstr : ∃ s2, c = PyVal.str s2 := by
        simp only [SPECIAL_DIR_CRITERIA, List.mem_cons, List.not_mem_nil, or_false,
          Prod.mk.injEq] at hmem
        rcases hmem with ⟨h1, _⟩ | ⟨h1, _⟩ | ⟨h1, _⟩ | ⟨h1, _⟩ <;> exact ⟨_, h1⟩
      obtain ⟨s2, rfl⟩ := hstr
      exact ⟨some s2, by simp [getSpecialE, hs]⟩

theorem getSpecialE_ok (tags : List String) : getSpecialE tags = Except.ok (get_special tags) := by
  obtain ⟨r, hr⟩ := getSpecialE_isOk tags
  simp [get_special, hr]

theorem get_special_keys :
    ∀ (tags : List String) (s : String), get_special tags = some s →
      s ∈ ["Demo", "Aftermarket", "Unlicensed", "Unreleased"] := by
  intro tags
  induction tags with
  | nil => intro s h; simp [get_special, getSpecialE] at h
  | cons snip rest ih =>
    intro s h
    cases hs : scanCriteria snip SPECIAL_DIR_CRITERIA with
    | none =>
      refine ih s ?_
      simp only [get_special, getSpecialE, hs] at h
      exact h
    | some c =>
      obtain ⟨equivs, hmem⟩ := scanCriteria_key_mem _ _ _ hs
      simp only [SPECIAL_DIR_CRITERIA, List.mem_cons, List.not_mem_nil, or_false,
        Prod.mk.injEq] at hmem
      simp only [get_special, getSpecialE, hs] at h
      rcases hmem with ⟨h1, _⟩ | ⟨h1, _⟩ | ⟨h1, _⟩ | ⟨h1, _⟩ <;>
        (subst h1; simp at h; simp [h])

theorem getSpecialE_first :
    ∀ (tags : List String) (i : Nat) (cat : String) (equivs : List String) (k : Nat),
      i < tags.length →
      (∀ j, j < tags.length → j < i →
        ∀ p ∈ SPECIAL_DIR_CRITERIA, ∀ e ∈ p.2, pyIn e (tags.getD j "") = false) →
      k < SPECIAL_DIR_CRITERIA.length →
      SPECIAL_DIR_CRITERIA.getD k (PyVal.notStr, []) = (PyVal.str cat, equivs) →
      equivs.any (fun e => pyIn e (tags.getD i "")) = true →
      (∀ k2, k2 < k →
        (SPECIAL_DIR_CRITERIA.getD k2 (PyVal.notStr, [])).2.any
          (fun e => pyIn e (tags.getD i "")) = false) →
      getSpecialE tags = Except.ok (some cat) := by
  intro tags
  induction tags with
  | nil => intro i cat equivs k hi; simp at hi
  | cons snip rest ih =>
    intro i cat equivs k hi hprev hk hgetk hhit hfirst
    cases i with
    | zero =>
      simp only [List.getD_cons_zero] at hhit hfirst
      have hscan : scanCriteria snip SPECIAL_DIR_CRITERIA =
          some (SPECIAL_DIR_CRITERIA.getD k (PyVal.notStr, [])).1 := by
        refine scanCriteria_first SPECIAL_DIR_CRITERIA snip k hk ?_ hfirst
        rw [hgetk]
        exact hhit
      rw [hgetk] at hscan
      simp [getSpecialE, hscan]
    | succ i2 =>
      have hscan : scanCriteria snip SPECIAL_DIR_CRITERIA = none := by
        refine scanCriteria_none SPECIAL_DIR_CRITERIA snip ?_
        intro p hp e he
        simpa using hprev 0 (Nat.succ_pos _) (Nat.succ_pos i2) p hp e he
      simp only [getSpecialE, hscan]
      refine ih i2 cat equivs k (by simpa using hi) ?_ hk hgetk (by simpa using hhit) ?_
      · intro j hj hji p hp e he
        have hx := hprev (j + 1) (by simp; omega) (by omega) p hp e he
        rwa [List.getD_cons_succ] at hx
      · intro k2 hk2
        have hx := hfirst k2 hk2
        rwa [List.getD_cons_succ] at hx

theorem getSpecialE_none :
    ∀ (tags : List String),
      (∀ s ∈ tags, ∀ p ∈ SPECIAL_DIR_CRITERIA, ∀ e ∈ p.2, pyIn e s = false) →
      getSpecialE tags = Except.ok none := by
  intro tags
  induction tags with
  | nil => intro _; rfl
  | cons snip rest ih =>
    intro h
    have hscan : scanCriteria snip SPECIAL_DIR_CRITERIA = none :=
      scanCriteria_none SPECIAL_DIR_CRITERIA snip
        (fun p hp e he => h snip (List.mem_cons_self _ _) p hp e he)
    simp only [getSpecialE, hscan]
    exact ih (fun s hs => h s (List.mem_cons_of_mem _ hs))

/-! Characterisation of `_get_release_info`. -/

theorem popRegionTag_isOk (tags : List String) (oi : Option Nat)
    (hb : ∀ i, oi = some i → i < tags.length) :
    ∃ rem, popRegionTag tags oi = Except.ok rem := by
  cases oi with
  | none => exact ⟨tags, rfl⟩
  | some i =>
    by_cases hi0 : i = 0
    · subst hi0
      exact ⟨tags, by simp [popRegionTag]⟩
    · have hlt := hb i rfl
      exact ⟨tags.eraseIdx i, by simp [popRegionTag, hi0, hlt]⟩

theorem getReleaseInfoE_isOk (filename : String) :
    ∃ ri, getReleaseInfoE filename = Except.ok ri := by
  obtain ⟨d, f, oi, hreg, hbound⟩ := getRegionE_ok_spec (extract_tags filename)
  obtain ⟨rem, hrem⟩ := popRegionTag_isOk (extract_tags filename) oi hbound
  obtain ⟨sp, hsp⟩ := getSpecialE_isOk rem
  refine ⟨{ region_dir := d, region_full := f, special := sp, extra_info := rem }, ?_⟩
  simp [getReleaseInfoE, hreg, hrem, hsp]

theorem getReleaseInfoE_ok (filename : String) :
    getReleaseInfoE filename = Except.ok (get_release_info filename) := by
  obtain ⟨ri, h⟩ := getReleaseInfoE_isOk filename
  simp [get_release_info, h]

theorem get_release_info_fields (filename : String) :
    ∃ rem, get_release_info filename =
      { region_dir := (get_region (extract_tags filename)).1,
        region_full := (get_region (extract_tags filename)).2.1,
        special := get_special rem,
        extra_info := rem } ∧
      popRegionTag (extract_tags filename) (get_region (extract_tags filename)).2.2 =
        Except.ok rem := by
  obtain ⟨d, f, oi, hreg, hbound⟩ := getRegionE_ok_spec (extract_tags filename)
  have hg : get_region (extract_tags filename) = (d, f, oi) := by
    simp [get_region, hreg]
  obtain ⟨rem, hrem⟩ := popRegionTag_isOk (extract_tags filename) oi hbound
  refine ⟨rem, ?_, by rw [hg]; exact hrem⟩
  rw [hg]
  simp [get_release_info, getReleaseInfoE, hreg, hrem, getSpecialE_ok rem]

theorem get_release_info_special_keys (filename : String) (s : String)
    (h : (get_release_info filename).special = some s) :
    s ∈ ["Demo", "Aftermarket", "Unlicensed", "Unreleased"] := by
  obtain ⟨rem, hri, _⟩ := get_release_info_fields filename
  rw [hri] at h
  exact get_special_keys rem s h

theorem get_release_info_special_ne_empty (filename : String) (s : String)
    (h : (get_release_info filename).special = some s) : s ≠ "" := by
  have hm := get_release_info_special_keys filename s h
  fin_cases hm <;> decide

/-! The tag extractor on filenames with no bracket. -/

theorem findallAux_no_open :
    ∀ (fuel : Nat) (l : List Char), (∀ c ∈ l, c ≠ '(') → findallAux fuel l = [] := by
  intro fuel
  induction fuel with
  | zero => intro l _; rfl
  | succ fuel ih =>
    intro l h
    cases l with
    | nil => rfl
    | cons c rest =>
      have hc : c ≠ '(' := h c (List.mem_cons_self _ _)
      rw [findallAux]
      rw [if_neg hc]
      exact ih rest (fun x hx => h x (List.mem_cons_of_mem _ hx))

theorem extract_tags_no_open (filename : String)
    (h : filename.toList.all (fun c => !(c == '(')) = true) : extract_tags filename = [] := by
  have h2 : ∀ c ∈ filename.toList, c ≠ '(' := by
    intro c hc
    simpa using List.all_eq_true.mp h c hc
  unfold extract_tags
  rw [findallAux_no_open filename.toList.length filename.toList h2]
  rfl

/-! Python-dict behaviour of `files_to_push`. -/

theorem lookup_append_single_ne (m : List (String × List String)) (k v k2 : String)
    (hne : k2 ≠ k) : (m ++ [(k, [v])]).lookup k2 = m.lookup k2 := by
  induction m with
  | nil =>
    have hbeq : (k2 == k) = false := beq_eq_false_iff_ne.mpr hne
    simp [List.lookup, hbeq]
  | cons p t ih =>
    obtain ⟨a, l⟩ := p
    by_cases hak : k2 = a
    · subst hak
      simp [List.lookup]
    · have hbeq : (k2 == a) = false := beq_eq_false_iff_ne.mpr hak
      simp [List.lookup, hbeq, ih]

theorem lookup_append_single_self (m : List (String × List String)) (k v : String)
    (h : m.lookup k = none) : (m ++ [(k, [v])]).lookup k = some [v] := by
  induction m with
  | nil => simp [List.lookup]
  | cons p t ih =>
    obtain ⟨a, l⟩ := p
    by_cases hak : k = a
    · subst hak
      simp [List.lookup] at h
    · have hbeq : (k == a) = false := beq_eq_false_iff_ne.mpr hak
      have h2 : t.lookup k = none := by simpa [List.lookup, hbeq] using h
      simp [List.lookup, hbeq, ih h2]

theorem lookup_map_update_self (m : List (String × List String)) (k v : String)
    (l : List String) (h : m.lookup k = some l) :
    (m.map (fun p => bif p.1 == k then (p.1, p.2 ++ [v]) else p)).lookup k = some (l ++ [v]) := by
  induction m with
  | nil => simp [List.lookup] at h
  | cons p t ih =>
    obtain ⟨a, l2⟩ := p
    by_cases hak : k = a
    · subst hak
      have hl2 : l2 = l := by simpa [List.lookup] using h
      subst hl2
      simp [List.lookup]
    · have hka : (k == a) = false := beq_eq_false_iff_ne.mpr hak
      have hakb : (a == k) = false := beq_eq_false_iff_ne.mpr (fun hh => hak hh.symm)
      have h2 : t.lookup k = some l := by simpa [List.lookup, hka] using h
      simp [List.lookup, hka, hakb, ih h2]

theorem lookup_map_update_ne (m : List (String × List String)) (k v k2 : String)
    (hne : k2 ≠ k) :
    (m.map (fun p => bif p.1 == k then (p.1, p.2 ++ [v]) else p)).lookup k2 = m.lookup k2 := by
  induction m with
  | nil => rfl
  | cons p t ih =>
    obtain ⟨a, l⟩ := p
    by_cases hak : a = k
    · subst hak
      have hns : (k2 == a) = false := beq_eq_false_iff_ne.mpr hne
      simp [List.lookup, hns, ih]
    · have hakb : (a == k) = false := beq_eq_false_iff_ne.mpr hak
      by_cases hak2 : k2 = a
      · subst hak2
        simp [List.lookup, hakb]
      · have hns : (k2 == a) = false := beq_eq_false_iff_ne.mpr hak2
        simp [List.lookup, hakb, hns, ih]

theorem dictAppend_lookup_self (m : List (String × List String)) (k v : String) :
    (dictAppend m k v).lookup k = some (((m.lookup k).getD []) ++ [v]) := by
  cases hl : m.lookup k with
  | some l =>
    have hmap : dictAppend m k v =
        m.map (fun p => bif p.1 == k then (p.1, p.2 ++ [v]) else p) := by
      simp [dictAppend, hl]
    rw [hmap, lookup_map_update_self m k v l hl]
    rfl
  | none =>
    have happ : dictAppend m k v = m ++ [(k, [v])] := by simp [dictAppend, hl]
    rw [happ, lookup_append_single_self m k v hl]
    rfl

theorem dictAppend_lookup_ne (m : List (String × List String)) (k v k2 : String)
    (hne : k2 ≠ k) : (dictAppend m k v).lookup k2 = m.lookup k2 := by
  cases hl : m.lookup k with
  | some l =>
    have hmap : dictAppend m k v =
        m.map (fun p => bif p.1 == k then (p.1, p.2 ++ [v]) else p) := by
      simp [dictAppend, hl]
    rw [hmap]
    exact lookup_map_update_ne m k v k2 hne
  | none =>
    have happ : dictAppend m k v = m ++ [(k, [v])] := by simp [dictAppend, hl]
    rw [happ]
    exact lookup_append_single_ne m k v k2 hne

theorem dictAppend_not_mem (m : List (String × List String)) (k v : String)
    (h : m.lookup k = none) : dictAppend m k v = m ++ [(k, [v])] := by
  simp [dictAppend, h]

/-! The push step. -/

theorem push_step_admitted (self : SystemSync) (m : List (String × List String)) (name : String)
    (h1 : check_allowed_special self (get_release_info name) = true)
    (h2 : check_allowed_region self (get_release_info name) = true) :
    push_step self m name =
      dictAppend m (joinPath self.remote_dir_full (output_dir_str (get_release_info name))) name := by
  simp [push_step, h1, h2]

theorem push_step_rejected (self : SystemSync) (m : List (String × List String)) (name : String)
    (h : check_allowed_special self (get_release_info name) = false ∨
      check_allowed_region self (get_release_info name) = false) :
    push_step self m name = m := by
  rcases h with h | h <;> simp [push_step, h]

theorem output_dir_str_special (filename s : String)
    (h : (get_release_info filename).special = some s) :
    output_dir_str (get_release_info filename) = s := by
  have hne := get_release_info_special_ne_empty filename s h
  simp [output_dir_str, h, hne]

theorem output_dir_str_none (filename : String)
    (h : (get_release_info filename).special = none) :
    output_dir_str (get_release_info filename) = (get_release_info filename).region_dir := by
  simp [output_dir_str, h]

/-! Claim theorems. -/

/-- C1 (code_bug evidence): the claim demands that a recorded region
match index always triggers removal of the matched tag, index 0
included, so that "Game (USA) (Rev 1).rom" gets extra_info = ["Rev 1"].
The source guards the removal with `if idx:`, and Python treats the
index 0 as falsy, so the matched tag "USA" (exact match at index 0,
region_dir = region_full = "USA") is NOT removed: the code produces
extra_info = ["USA", "Rev 1"], in divergence from the claim. -/
theorem release_info_usa_rev1_eval :
    get_release_info "Game (USA) (Rev 1).rom" =
      { region_dir := "USA", region_full := "USA", special := none,
        extra_info := ["USA", "Rev 1"] } ∧
    "USA" ∈ (get_release_info "Game (USA) (Rev 1).rom").extra_info ∧
    (get_release_info "Game (USA) (Rev 1).rom").extra_info ≠ ["Rev 1"] := by
  decide

/-- C2: in the exact-match pass the rightmost tag that exactly equals a
region-vocabulary entry wins: region_dir and region_full are both that
tag's text and its index is recorded for removal; in particular
["Europe", "France"] resolves to region_dir = "France". -/
theorem exact_match_last_wins :
    (∀ (tags : List String) (i : Nat),
      i < tags.length →
      REGION_LIST.contains (tags.getD i "") = true →
      (∀ j, j < tags.length → i < j → REGION_LIST.contains (tags.getD j "") = false) →
      get_region tags = (tags.getD i "", tags.getD i "", some i)) ∧
    get_region ["Europe", "France"] = ("France", "France", some 1) := by
  refine ⟨get_region_exact, ?_⟩
  exact get_region_exact ["Europe", "France"] 1 (by decide) (by decide) (by decide)

/-- C2 witness: the concrete example, obtained from the theorem. -/
theorem exact_match_last_wins_example :
    get_region ["Europe", "France"] = ("France", "France", some 1) :=
  exact_match_last_wins.2

/-- C3: when no tag exactly equals a vocabulary entry, the partial pass
scans tags in order and the reversed vocabulary per tag, overwriting on
every substring hit, so the last hit in that iteration order wins, with
region_dir the vocabulary entry and region_full the whole tag; a lone
tag "Japan, English Patch" gives region_dir = "Japan"; when neither
pass matches the result is ("Unknown", "Unknown") with no index. -/
theorem partial_match_last_wins :
    (∀ (tags : List String) (i k : Nat),
      (∀ j, j < tags.length → REGION_LIST.contains (tags.getD j "") = false) →
      i < tags.length →
      k < REGION_LIST.reverse.length →
      pyIn (REGION_LIST.reverse.getD k "") (tags.getD i "") = true →
      (∀ k2, k2 < REGION_LIST.reverse.length → k < k2 →
        pyIn (REGION_LIST.reverse.getD k2 "") (tags.getD i "") = false) →
      (∀ j, j < tags.length → i < j → ∀ r ∈ REGION_LIST, pyIn r (tags.getD j "") = false) →
      get_region tags = (REGION_LIST.reverse.getD k "", tags.getD i "", some i)) ∧
    get_region ["Japan, English Patch"] = ("Japan", "Japan, English Patch", some 0) ∧
    (∀ (tags : List String),
      (∀ s ∈ tags, ∀ r ∈ REGION_LIST, pyIn r s = false) →
      get_region tags = ("Unknown", "Unknown", none)) := by
  refine ⟨get_region_partial_hit, ?_, get_region_unknown⟩
  exact get_region_partial_hit ["Japan, English Patch"] 0 23 (by decide) (by decide)
    (by decide) (by decide) (by decide) (by decide)

/-- C3 witness: the partial-match example and the no-match fallback at
concrete inputs, obtained from the theorem. -/
theorem partial_match_last_wins_examples :
    get_region ["Japan, English Patch"] = ("Japan", "Japan, English Patch", some 0) ∧
    get_region ["Rev 1"] = ("Unknown", "Unknown", none) :=
  ⟨partial_match_last_wins.2.1, partial_match_last_wins.2.2 ["Rev 1"] (by decide)⟩

/-- C10 counterexample: a filename containing the tag "Unknown" does
not always resolve to region_dir = "Unknown": in
"Game (Unknown) (USA).rom" the later exact match "USA" overwrites it. -/
theorem unknown_tag_counterexample :
    "Unknown" ∈ extract_tags "Game (Unknown) (USA).rom" ∧
    (get_release_info "Game (Unknown) (USA).rom").region_dir = "USA" ∧
    ¬ (get_release_info "Game (Unknown) (USA).rom").region_dir = "Unknown" := by
  decide

/-- C10 (amended): "Unknown" is itself an entry of the region
vocabulary, so a tag exactly equal to "Unknown" that is the rightmost
exact vocabulary match wins the exact pass with region_dir =
region_full = "Unknown" and its index recorded; such a filename is then
indistinguishable in (region_dir, region_full) from one with no region
tag at all, which also yields ("Unknown", "Unknown") (with no index). -/
theorem unknown_in_region_vocabulary :
    REGION_LIST.contains "Unknown" = true ∧
    (∀ (tags : List String) (i : Nat),
      i < tags.length →
      tags.getD i "" = "Unknown" →
      (∀ j, j < tags.length → i < j → REGION_LIST.contains (tags.getD j "") = false) →
      get_region tags = ("Unknown", "Unknown", some i)) ∧
    get_region [] = ("Unknown", "Unknown", none) := by
  refine ⟨by decide, ?_, by decide⟩
  intro tags i hi hu hlast
  have h := get_region_exact tags i hi (by rw [hu]; decide) hlast
  rw [hu] at h
  exact h

/-- C10 witness: a lone "Unknown" tag, obtained from the theorem. -/
theorem unknown_in_region_vocabulary_example :
    get_region ["Unknown"] = ("Unknown", "Unknown", some 0) :=
  unknown_in_region_vocabulary.2.1 ["Unknown"] 0 (by decide) (by decide) (by decide)

/-- C4: the Special Resolver scans tags in order, categories in table
order and equivalents in declared order, and returns the first category
one of whose equivalents is a substring of a tag; with no match it
returns no category.  (At most one category is returned by
construction: the result is a single `Option String`.)  A tag "Unl"
resolves to "Unlicensed". -/
theorem special_first_match :
    (∀ (tags : List String) (i : Nat) (cat : String) (equivs : List String) (k : Nat),
      i < tags.length →
      (∀ j, j < tags.length → j < i →
        ∀ p ∈ SPECIAL_DIR_CRITERIA, ∀ e ∈ p.2, pyIn e (tags.getD j "") = false) →
      k < SPECIAL_DIR_CRITERIA.length →
      SPECIAL_DIR_CRITERIA.getD k (PyVal.notStr, []) = (PyVal.str cat, equivs) →
      equivs.any (fun e => pyIn e (tags.getD i "")) = true →
      (∀ k2, k2 < k →
        (SPECIAL_DIR_CRITERIA.getD k2 (PyVal.notStr, [])).2.any
          (fun e => pyIn e (tags.getD i "")) = false) →
      get_special tags = some cat) ∧
    (∀ (tags : List String),
      (∀ s ∈ tags, ∀ p ∈ SPECIAL_DIR_CRITERIA, ∀ e ∈ p.2, pyIn e s = false) →
      get_special tags = none) ∧
    get_special ["Unl"] = some "Unlicensed" := by
  refine ⟨?_, ?_, by decide⟩
  · intro tags i cat equivs k hi hprev hk hgetk hhit hfirst
    have h := getSpecialE_first tags i cat equivs k hi hprev hk hgetk hhit hfirst
    have h2 := getSpecialE_ok tags
    rw [h] at h2
    injection h2 with h3
    exact h3.symm
  · intro tags h
    have h1 := getSpecialE_none tags h
    have h2 := getSpecialE_ok tags
    rw [h1] at h2
    injection h2 with h3
    exact h3.symm

/-- C4 witness: the "Unl" example and a no-match input, obtained from
the theorem. -/
theorem special_first_match_examples :
    get_special ["Unl"] = some "Unlicensed" ∧ get_special ["Rev 1"] = none :=
  ⟨special_first_match.2.2, special_first_match.2.1 ["Rev 1"] (by decide)⟩

/-- C5: the region filter rejects iff region_full contains an
exclude-list entry as substring; otherwise with a non-empty include
list it admits iff region_full contains an entry of the include list or
of the always-allowed set as substring; with an empty include list it
admits.  With include ["USA"], region_full "Europe" is rejected and
"World" admitted. -/
theorem region_filter_spec :
    (∀ (self : SystemSync) (ri : ReleaseInfo),
      check_allowed_region self ri = true ↔
        ((∀ e ∈ self.region_list_exclude, ¬ e.toList <:+: ri.region_full.toList) ∧
         (self.region_list_include = [] ∨
           ∃ e, (e ∈ self.region_list_include ∨ e ∈ REGION_ALWAYS_ALLOWED) ∧
             e.toList <:+: ri.region_full.toList))) ∧
    check_allowed_region ⟨["USA"], [], [], [], ""⟩ ⟨"Europe", "Europe", none, []⟩ = false ∧
    check_allowed_region ⟨["USA"], [], [], [], ""⟩ ⟨"World", "World", none, []⟩ = true := by
  refine ⟨?_, by decide, by decide⟩
  intro self ri
  unfold check_allowed_region
  split_ifs with h1 h2
  · simp only [List.any_eq_true] at h1
    obtain ⟨e, he, hin⟩ := h1
    constructor
    · intro h; exact absurd h (by decide)
    · rintro ⟨hexc, -⟩
      exact absurd ((pyIn_iff e ri.region_full).mp hin) (hexc e he)
  · have hnoexc : ∀ e ∈ self.region_list_exclude, ¬ e.toList <:+: ri.region_full.toList := by
      intro e he hin
      exact h1 (by
        simp only [List.any_eq_true]
        exact ⟨e, he, (pyIn_iff e ri.region_full).mpr hin⟩)
    have hne : self.region_list_include ≠ [] := by
      intro hcon
      rw [hcon] at h2
      simp at h2
    constructor
    · intro hC
      simp only [List.any_eq_true, List.mem_append] at hC
      obtain ⟨e, he, hin⟩ := hC
      exact ⟨hnoexc, Or.inr ⟨e, he, (pyIn_iff e ri.region_full).mp hin⟩⟩
    · rintro ⟨-, hinc⟩
      rcases hinc with hempty | ⟨e, hmem, hin⟩
      · exact absurd hempty hne
      · simp only [List.any_eq_true, List.mem_append]
        exact ⟨e, hmem, (pyIn_iff e ri.region_full).mpr hin⟩
  · have hnoexc : ∀ e ∈ self.region_list_exclude, ¬ e.toList <:+: ri.region_full.toList := by
      intro e he hin
      exact h1 (by
        simp only [List.any_eq_true]
        exact ⟨e, he, (pyIn_iff e ri.region_full).mpr hin⟩)
    have hempty : self.region_list_include = [] := by
      by_contra hcon
      have hf : self.region_list_include.isEmpty = false := by simpa using hcon
      exact h2 (by simp [hf])
    exact ⟨fun _ => ⟨hnoexc, Or.inl hempty⟩, fun _ => rfl⟩

/-- C5 witness: both concrete filter decisions, obtained from the
theorem. -/
theorem region_filter_examples :
    check_allowed_region ⟨["USA"], [], [], [], ""⟩ ⟨"Europe", "Europe", none, []⟩ = false ∧
    check_allowed_region ⟨["USA"], [], [], [], ""⟩ ⟨"World", "World", none, []⟩ = true :=
  ⟨region_filter_spec.2.1, region_filter_spec.2.2⟩

/-- C6: the special filter rejects iff some extra_info tag contains an
exclude entry as substring; otherwise with a non-empty include list it
admits iff some extra_info tag contains an include entry as substring;
with an empty include list it admits.  A file is placed into the
destination mapping only if both filters admit it: a rejection by
either filter leaves the mapping unchanged. -/
theorem special_filter_and_both :
    (∀ (self : SystemSync) (ri : ReleaseInfo),
      check_allowed_special self ri = true ↔
        ((∀ x ∈ self.special_list_exclude, ∀ extra ∈ ri.extra_info, ¬ x.toList <:+: extra.toList) ∧
         (self.special_list_include = [] ∨
           ∃ x ∈ self.special_list_include, ∃ extra ∈ ri.extra_info,
             x.toList <:+: extra.toList))) ∧
    (∀ (self : SystemSync) (m : List (String × List String)) (name : String),
      check_allowed_special self (get_release_info name) = false ∨
        check_allowed_region self (get_release_info name) = false →
      push_step self m name = m) := by
  refine ⟨?_, push_step_rejected⟩
  intro self ri
  unfold check_allowed_special
  split_ifs with h1 h2
  · simp only [List.any_eq_true] at h1
    obtain ⟨extra, hextra, x, hx, hin⟩ := h1
    constructor
    · intro h; exact absurd h (by decide)
    · rintro ⟨hexc, -⟩
      exact absurd ((pyIn_iff x extra).mp hin) (hexc x hx extra hextra)
  · have hnoexc : ∀ x ∈ self.special_list_exclude, ∀ extra ∈ ri.extra_info,
        ¬ x.toList <:+: extra.toList := by
      intro x hx extra hextra hin
      exact h1 (by
        simp only [List.any_eq_true]
        exact ⟨extra, hextra, x, hx, (pyIn_iff x extra).mpr hin⟩)
    have hne : self.special_list_include ≠ [] := by
      intro hcon
      rw [hcon] at h2
      simp at h2
    constructor
    · intro hC
      simp only [List.any_eq_true] at hC
      obtain ⟨extra, hextra, x, hx, hin⟩ := hC
      exact ⟨hnoexc, Or.inr ⟨x, hx, extra, hextra, (pyIn_iff x extra).mp hin⟩⟩
    · rintro ⟨-, hinc⟩
      rcases hinc with hempty | ⟨x, hx, extra, hextra, hin⟩
      · exact absurd hempty hne
      · simp only [List.any_eq_true]
        exact ⟨extra, hextra, x, hx, (pyIn_iff x extra).mpr hin⟩
  · have hnoexc : ∀ x ∈ self.special_list_exclude, ∀ extra ∈ ri.extra_info,
        ¬ x.toList <:+: extra.toList := by
      intro x hx extra hextra hin
      exact h1 (by
        simp only [List.any_eq_true]
        exact ⟨extra, hextra, x, hx, (pyIn_iff x extra).mpr hin⟩)
    have hempty : self.special_list_include = [] := by
      by_contra hcon
      have hf : self.special_list_include.isEmpty = false := by simpa using hcon
      exact h2 (by simp [hf])
    exact ⟨fun _ => ⟨hnoexc, Or.inl hempty⟩, fun _ => rfl⟩

/-- C6 witness: with special_list_exclude = ["Proto"], the file
"Game (Proto).rom" is rejected by the special filter and the push step
leaves the mapping unchanged, obtained from the theorem. -/
theorem special_filter_examples :
    check_allowed_special ⟨[], [], [], ["Proto"], ""⟩ (get_release_info "Game (Proto).rom") = false ∧
    push_step ⟨[], [], [], ["Proto"], ""⟩ [] "Game (Proto).rom" = [] := by
  refine ⟨by decide, ?_⟩
  exact special_filter_and_both.2 ⟨[], [], [], ["Proto"], ""⟩ [] "Game (Proto).rom"
    (Or.inl (by decide))

/-- C7: an admitted file goes to the subfolder named by its special
category when one is present, else by its region_dir; the destination
key joins the configured base, the remote directory and that subfolder;
`files_to_push` behaves as an insertion-ordered dict whose lists grow by
appending (an unseen key is created first); and the end-to-end example
with base "/dest" and remote directory "snes" produces exactly the three
claimed singleton destinations. -/
theorem destination_mapping_spec :
    (∀ (self : SystemSync) (m : List (String × List String)) (name : String),
      check_allowed_special self (get_release_info name) = true →
      check_allowed_region self (get_release_info name) = true →
      ((∀ s, (get_release_info name).special = some s →
        push_step self m name = dictAppend m (joinPath self.remote_dir_full s) name) ∧
       ((get_release_info name).special = none →
        push_step self m name =
          dictAppend m (joinPath self.remote_dir_full (get_release_info name).region_dir) name))) ∧
    (∀ (m : List (String × List String)) (k v : String),
      (dictAppend m k v).lookup k = some (((m.lookup k).getD []) ++ [v]) ∧
      (∀ k2, k2 ≠ k → (dictAppend m k v).lookup k2 = m.lookup k2) ∧
      (m.lookup k = none → dictAppend m k v = m ++ [(k, [v])])) ∧
    get_files_to_push ⟨[], [], [], [], mk_remote_dir_full "/dest" "snes"⟩
      ["Game (USA).rom", "Game (Europe) (Demo).rom", "Game (Japan, Rev 1).rom"] =
      [("/dest/snes/USA", ["Game (USA).rom"]),
       ("/dest/snes/Demo", ["Game (Europe) (Demo).rom"]),
       ("/dest/snes/Japan", ["Game (Japan, Rev 1).rom"])] := by
  refine ⟨?_, ?_, by decide⟩
  · intro self m name h1 h2
    constructor
    · intro s hs
      rw [push_step_admitted self m name h1 h2, output_dir_str_special name s hs]
    · intro hs
      rw [push_step_admitted self m name h1 h2, output_dir_str_none name hs]
  · intro m k v
    exact ⟨dictAppend_lookup_self m k v, fun k2 h => dictAppend_lookup_ne m k v k2 h,
      dictAppend_not_mem m k v⟩

/-- C7 witness: the push step at two concrete admitted files, one
routed by region, one by special category, obtained from the theorem. -/
theorem destination_mapping_examples :
    push_step ⟨[], [], [], [], "/dest/snes"⟩ [] "Game (USA).rom" =
      dictAppend [] (joinPath "/dest/snes" "USA") "Game (USA).rom" ∧
    push_step ⟨[], [], [], [], "/dest/snes"⟩ [] "Game (Europe) (Demo).rom" =
      dictAppend [] (joinPath "/dest/snes" "Demo") "Game (Europe) (Demo).rom" := by
  constructor
  · exact (destination_mapping_spec.1 ⟨[], [], [], [], "/dest/snes"⟩ [] "Game (USA).rom"
      (by decide) (by decide)).2 (by decide)
  · exact (destination_mapping_spec.1 ⟨[], [], [], [], "/dest/snes"⟩ [] "Game (Europe) (Demo).rom"
      (by decide) (by decide)).1 "Demo" (by decide)

/-- C8: classification never raises: `resolve_release_info` (with every
implicit exception site of the source modelled, the special resolver's
TypeError branch and the region resolver's unbound-variable return
among them) returns a normal result on every filename; the special
resolver alone never takes its error branch on any tag list; a filename
with no "(" has no parenthesised group so extraction is empty; and an
empty extraction yields region "Unknown", no special category and no
extra tags. -/
theorem classification_total :
    (∀ filename : String, getReleaseInfoE filename = Except.ok (get_release_info filename)) ∧
    (∀ tags : List String, getSpecialE tags = Except.ok (get_special tags)) ∧
    (∀ filename : String, filename.toList.all (fun c => !(c == '(')) = true →
      extract_tags filename = []) ∧
    (∀ filename : String, extract_tags filename = [] →
      get_release_info filename =
        { region_dir := "Unknown", region_full := "Unknown", special := none,
          extra_info := [] }) := by
  refine ⟨getReleaseInfoE_ok, getSpecialE_ok, extract_tags_no_open, ?_⟩
  intro filename h
  have hok : getReleaseInfoE filename = Except.ok
      { region_dir := "Unknown", region_full := "Unknown", special := none,
        extra_info := [] } := by
    simp only [getReleaseInfoE, h]
    rfl
  simp [get_release_info, hok]

/-- C8 witness: an extension-only filename, obtained from the theorem. -/
theorem classification_total_example :
    getReleaseInfoE "plainfile.rom" = Except.ok (get_release_info "plainfile.rom") ∧
    extract_tags "plainfile.rom" = [] ∧
    get_release_info "plainfile.rom" =
      { region_dir := "Unknown", region_full := "Unknown", special := none,
        extra_info := [] } :=
  ⟨classification_total.1 "plainfile.rom",
   classification_total.2.2.1 "plainfile.rom" (by decide),
   classification_total.2.2.2 "plainfile.rom" (by decide)⟩

/-- C9: classification is deterministic: the destination mapping is a
pure function of the filter configuration and the file list, so running
it twice on the same inputs gives identical mappings, key order and
per-destination file order included (the embedding is a pure function,
so the two runs are definitionally equal). -/
theorem classify_deterministic :
    ∀ (self : SystemSync) (all_files : List String),
      get_files_to_push self all_files = get_files_to_push self all_files :=
  fun _ _ => rfl

end SmartRomSync
